import Mathlib

/-!
Verification development for the `rust_decompress` zip extractor
(`src/main.rs`).  The program is embedded shallowly:

* a filesystem path is a list of components (`Path`);
* the zip archive is an indexed sequence of entries, where fetching the
  metadata of an entry may fail with a `ZipError` (as `by_index` may);
* an entry's decompressed byte stream either yields its full contents or
  fails mid-copy after producing a prefix of bytes;
* the filesystem is a finite map from paths to directory/file data, and
  each mutating step is recorded as an `FsEvent` so that ordering
  properties can be stated.
-/

namespace RustDecompress

/-- A filesystem path, as its list of components. -/
abbrev Path := List String

/-- Error kinds of `std::io::Error` that the embedding distinguishes. -/
inductive IoErrorKind where
  | notFound
  | notADirectory
  | streamFailed (code : Nat)
  deriving DecidableEq, Repr

/-- Abstract payload of `zip::result::ZipError`. -/
abbrev ZipError := Nat

/-- The error type `enum ExtractError { IoError(io::Error), ZipError(zip::result::ZipError) }`. -/
inductive ExtractError where
  | ioError (k : IoErrorKind)
  | zipError (e : ZipError)
  deriving DecidableEq, Repr

/-- Result of reading an entry's decompressed byte stream with `io::copy`:
either the full contents, or a mid-copy failure after a prefix of bytes
(`written`) has been produced. -/
inductive StreamData where
  | ok (bytes : List Nat)
  | corrupt (written : List Nat) (code : Nat)
  deriving DecidableEq, Repr

/-- Metadata and stream of one archive entry, as exposed by the zip reader. -/
structure ZipEntry where
  name : String
  size : Nat
  stream : StreamData
  deriving DecidableEq, Repr

/-- The `zip::ZipArchive`: an indexed sequence of entries.  `entries.get? i`
models `archive.by_index(i)`: fetching an entry at a valid index may
itself fail with a `ZipError`. -/
structure ZipArchive where
  entries : List (Except ZipError ZipEntry)
  deriving Repr

/-- The `enum FileKind { Directory, File { size: u64 } }`. -/
inductive FileKind where
  | Directory
  | File (size : Nat)
  deriving DecidableEq, Repr

/-- One planned entry: `struct ExtractedFile { path, kind, index }`. -/
structure ExtractedFile where
  path : Path
  kind : FileKind
  index : Nat
  deriving DecidableEq, Repr

/-- Splits a string on `'/'`, keeping empty pieces — the component split
used by the resolver (`name.split('/')` semantics). -/
def splitSlash : List Char → List Char → List String
  | [], cur => [String.mk cur.reverse]
  | c :: rest, cur =>
    if c = '/' then String.mk cur.reverse :: splitSlash rest []
    else splitSlash rest (c :: cur)

/-- The raw components of a declared entry name. -/
def rawComponents (s : String) : List String :=
  splitSlash s.data []

/-- Logical `.`/`..` normalization over path components: empty and `.`
segments are dropped, `..` pops the last kept segment and fails when
there is nothing left to pop (the name escapes the root). -/
def normalizeComponents : List String → List String → Option (List String)
  | [], acc => some acc.reverse
  | c :: rest, acc =>
    if c = "" ∨ c = "." then normalizeComponents rest acc
    else if c = ".." then
      match acc with
      | [] => none
      | _ :: acc' => normalizeComponents rest acc'
    else normalizeComponents rest (c :: acc)

/-- Modelled from the spec: the Path Resolver's name normalization, which
the source delegates to the zip dependency's `ZipFile::enclosed_name`
(code not under `src/`).  Per the spec it rejects absolute names, resolves
`.`/`..` segments logically, fails when the name is empty or normalizes to
a path outside the destination root (a `..` that escapes), and otherwise
returns the normalized components to be joined onto the root. -/
def enclosed_name (name : String) : Option (List String) :=
  match name.data with
  | [] => none
  | c :: _ =>
    if c = '/' then none
    else
      match normalizeComponents (rawComponents name) [] with
      | some [] => none
      | some comps => some comps
      | none => none

/-- The trailing-separator test `(*file.name()).ends_with('/')`. -/
def endsWithSlash (s : String) : Bool :=
  s.data.getLast? == some '/'

/-- The body of the closure in `get_extracted_files` for one index `i`:
fetch the entry (`by_index(i).ok()?` — a metadata error skips the index),
resolve its name (`enclosed_name`, a failure skips the index), join onto
the output directory, and classify by the trailing separator. -/
def planStep (a : ZipArchive) (output_dir : Path) (i : Nat) : Option ExtractedFile :=
  match a.entries.get? i with
  | some (Except.ok e) =>
    match enclosed_name e.name with
    | some comps =>
      some { path := output_dir ++ comps,
             kind := if endsWithSlash e.name then FileKind.Directory
                     else FileKind.File e.size,
             index := i }
    | none => none
  | _ => none

/-- Embedding of `ZipExtractor::get_extracted_files`:
`(0..archive.len()).filter_map(|i| ...).collect()`. -/
def get_extracted_files (a : ZipArchive) (output_dir : Path) : List ExtractedFile :=
  (List.range a.entries.length).filterMap (planStep a output_dir)

/-- The filesystem: the set of existing directories and an association
list mapping file paths to their byte contents. -/
structure FS where
  dirs : List Path
  files : List (Path × List Nat)
  deriving DecidableEq, Repr

/-- A directory exists at `p`. -/
def FS.isDirB (fs : FS) (p : Path) : Bool :=
  fs.dirs.contains p

/-- The contents of the file at `p`, if one exists. -/
def FS.fileContent (fs : FS) (p : Path) : Option (List Nat) :=
  (fs.files.find? (fun kv => kv.1 == p)).map (fun kv => kv.2)

/-- A file exists at `p`. -/
def FS.hasFileB (fs : FS) (p : Path) : Bool :=
  (fs.fileContent p).isSome

/-- `Path::exists`: something (directory or file) exists at `p`. -/
def FS.existsB (fs : FS) (p : Path) : Bool :=
  fs.isDirB p || fs.hasFileB p

/-- Set (create or truncate-and-rewrite) the file at `p` to contents `c`. -/
def FS.setFile (fs : FS) (p : Path) (c : List Nat) : FS :=
  { fs with files := (p, c) :: fs.files.filter (fun kv => !(kv.1 == p)) }

/-- Well-formedness: no path is both a directory and a file. -/
def FS.wfB (fs : FS) : Bool :=
  fs.dirs.all (fun p => !(fs.hasFileB p))

/-- Embedding of `fs::create_dir_all`: creates the directory at `p` and all missing
ancestors; fails when a file sits at `p` or at one of its ancestors. -/
def createDirAll (fs : FS) (p : Path) : Except IoErrorKind FS :=
  if p.inits.any (fun q => fs.hasFileB q) then
    Except.error IoErrorKind.notADirectory
  else
    Except.ok { fs with dirs := p.inits ++ fs.dirs }

/-- Embedding of `fs::File::create`: creates (truncating if present) the file at `p`.
Fails when a directory sits at `p`, or when the parent of `p` is not an
existing directory — `File::create` does not create missing ancestors. -/
def fileCreate (fs : FS) (p : Path) : Except IoErrorKind FS :=
  if fs.isDirB p then Except.error IoErrorKind.notADirectory
  else if fs.isDirB p.dropLast then Except.ok (fs.setFile p [])
  else Except.error IoErrorKind.notFound

/-- One recorded filesystem mutation attempt. -/
inductive FsEvent where
  | mkdirAll (p : Path)
  | createFile (p : Path)
  deriving DecidableEq, Repr

/-- The path an event targets. -/
def FsEvent.path : FsEvent → Path
  | FsEvent.mkdirAll p => p
  | FsEvent.createFile p => p

/-- Outcome of (part of) the write pass: the filesystem reached, the
mutation attempts made, and the first error if one occurred. -/
structure WriteOut where
  fs : FS
  events : List FsEvent
  err : Option ExtractError
  deriving Repr

/-- The body of the loop in `write_extracted_files` for one planned entry:
a `Directory` target is created with all ancestors unless its path already
exists; a `File` target is created (truncating), the source entry is
re-fetched by its stored index, and its stream is copied to completion —
a mid-copy stream failure leaves the bytes written so far in the file. -/
def writeOne (a : ZipArchive) (fs : FS) (ef : ExtractedFile) : WriteOut :=
  match ef.kind with
  | FileKind.Directory =>
    if fs.existsB ef.path then ⟨fs, [], none⟩
    else
      match createDirAll fs ef.path with
      | Except.ok fs' => ⟨fs', [FsEvent.mkdirAll ef.path], none⟩
      | Except.error k => ⟨fs, [FsEvent.mkdirAll ef.path], some (ExtractError.ioError k)⟩
  | FileKind.File _ =>
    match fileCreate fs ef.path with
    | Except.error k => ⟨fs, [FsEvent.createFile ef.path], some (ExtractError.ioError k)⟩
    | Except.ok fs1 =>
      match a.entries.get? ef.index with
      | some (Except.ok e) =>
        match e.stream with
        | StreamData.ok bytes =>
          ⟨fs1.setFile ef.path bytes, [FsEvent.createFile ef.path], none⟩
        | StreamData.corrupt w c =>
          ⟨fs1.setFile ef.path w, [FsEvent.createFile ef.path],
           some (ExtractError.ioError (IoErrorKind.streamFailed c))⟩
      | some (Except.error z) =>
        ⟨fs1, [FsEvent.createFile ef.path], some (ExtractError.zipError z)⟩
      | none =>
        ⟨fs1, [FsEvent.createFile ef.path], some (ExtractError.zipError 0)⟩

/-- Embedding of `ZipExtractor::write_extracted_files`: executes the plan in order,
stopping at the first error (`?` propagation). -/
def write_extracted_files (a : ZipArchive) (fs : FS) : List ExtractedFile → WriteOut
  | [] => ⟨fs, [], none⟩
  | ef :: rest =>
    let w := writeOne a fs ef
    match w.err with
    | some e => ⟨w.fs, w.events, some e⟩
    | none =>
      let r := write_extracted_files a w.fs rest
      ⟨r.fs, w.events ++ r.events, r.err⟩

/-- The progress bar: `ProgressBar::new(total)` with its message. -/
structure ProgressBar where
  total : Nat
  message : String
  deriving DecidableEq, Repr

/-- The extractor `struct ZipExtractor { archive, output_dir, progress_bar }`. -/
structure ZipExtractor where
  archive : ZipArchive
  output_dir : Path
  progress_bar : Option ProgressBar

/-- Embedding of `ZipExtractor::new`: when `progress` is set, the progress bar is built
here — at construction time — with `ProgressBar::new(archive.len())`. -/
def ZipExtractor.new (a : ZipArchive) (output_dir : Path) (progress : Bool) : ZipExtractor :=
  { archive := a,
    output_dir := output_dir,
    progress_bar :=
      if progress then some { total := a.entries.length, message := "Extracting files..." }
      else none }

/-- Result of `ZipExtractor::extract` together with the filesystem it
produced and the mutation attempts it made. -/
structure ExtractResult where
  plan : List ExtractedFile
  fs : FS
  events : List FsEvent
  err : Option ExtractError

/-- Embedding of `ZipExtractor::extract`: build the full plan with
`get_extracted_files`, then execute it with `write_extracted_files`. -/
def ZipExtractor.extract (x : ZipExtractor) (fs : FS) : ExtractResult :=
  let plan := get_extracted_files x.archive x.output_dir
  let w := write_extracted_files x.archive fs plan
  { plan := plan, fs := w.fs, events := w.events, err := w.err }

/-- Embedding of `ZipExtractor::finish_progress_bar`: the completion message. -/
def finish_progress_bar (plan : List ExtractedFile) : String :=
  "Extracted " ++ toString plan.length ++ " files"

/-- The components of a path string per Rust's `Path::components`: split
on `/`, dropping empty and `.` segments. -/
def path_components (s : String) : List String :=
  (rawComponents s).filter (fun c => !(c == "" || c == "."))

/-- Rust's `Path::file_name`: the last component when it is a normal
component; `None` when the path terminates in `..` or has no component. -/
def file_name (s : String) : Option String :=
  match (path_components s).getLast? with
  | some c => if c = ".." then none else some c
  | none => none

/-- The stem of a bare file name per Rust: the portion before the final
`.`; the whole name when there is no `.` or when the only `.` leads. -/
def stemOfName (s : String) : String :=
  let rev := s.data.reverse
  let ext := rev.takeWhile (fun c => !(c == '.'))
  if ext.length = rev.length then s
  else
    let stemRev := rev.drop (ext.length + 1)
    if stemRev.isEmpty then s else String.mk stemRev.reverse

/-- Rust's `Path::file_stem`. -/
def file_stem (s : String) : Option String :=
  (file_name s).map stemOfName

/-- The parsed command line: `struct Opt { input, output_dir, progress }`. -/
structure Opt where
  input : String
  output_dir : Option Path
  progress : Bool

/-- The default output directory the `extract` entry point computes when
the caller omits one: `PathBuf::from(".").join(opt.input.file_stem().unwrap())`.
`none` models the `unwrap` panic when `file_stem` is `None`. -/
def defaultOutputDir (input : String) : Option Path :=
  (file_stem input).map (fun st => ["."] ++ [st])

/-- The output directory used by the `extract` entry point:
`opt.output_dir.unwrap_or_else(|| ...)`; `none` models a panic. -/
def resolveOutputDir (o : Opt) : Option Path :=
  match o.output_dir with
  | some d => some d
  | none => defaultOutputDir o.input

/-- Modelled from the spec: the default destination the spec describes —
"a sibling directory named after the archive's base name with its
extension stripped", i.e. the input's parent joined with the stem.  Stated
only for comparison with `defaultOutputDir`, which embeds the code. -/
def siblingOutputDir (input : String) : Option Path :=
  (file_stem input).map (fun st => (path_components input).dropLast ++ [st])


/-! ## Basic equation lemmas about the write pass -/

/-- Unfolding `write_extracted_files` at a cons whose head step succeeds. -/
theorem write_cons_ok {a : ZipArchive} {fs : FS} {ef : ExtractedFile} {l : List ExtractedFile}
    (h : (writeOne a fs ef).err = none) :
    write_extracted_files a fs (ef :: l) =
      ⟨(write_extracted_files a (writeOne a fs ef).fs l).fs,
       (writeOne a fs ef).events ++ (write_extracted_files a (writeOne a fs ef).fs l).events,
       (write_extracted_files a (writeOne a fs ef).fs l).err⟩ := by
  simp only [write_extracted_files]
  rw [h]

/-- Unfolding `write_extracted_files` at a cons whose head step fails. -/
theorem write_cons_err {a : ZipArchive} {fs : FS} {ef : ExtractedFile} {l : List ExtractedFile}
    {e : ExtractError} (h : (writeOne a fs ef).err = some e) :
    write_extracted_files a fs (ef :: l) =
      ⟨(writeOne a fs ef).fs, (writeOne a fs ef).events, some e⟩ := by
  simp only [write_extracted_files]
  rw [h]

/-- Executing an appended plan whose first half succeeds continues from
the filesystem the first half produced. -/
theorem write_append_ok (a : ZipArchive) :
    ∀ (l₁ : List ExtractedFile) (fs : FS), ∀ (l₂ : List ExtractedFile),
      (write_extracted_files a fs l₁).err = none →
      write_extracted_files a fs (l₁ ++ l₂) =
        ⟨(write_extracted_files a (write_extracted_files a fs l₁).fs l₂).fs,
         (write_extracted_files a fs l₁).events ++
           (write_extracted_files a (write_extracted_files a fs l₁).fs l₂).events,
         (write_extracted_files a (write_extracted_files a fs l₁).fs l₂).err⟩
  | [], fs, l₂, _ => by simp [write_extracted_files]
  | ef :: rest, fs, l₂, h => by
    cases hw : (writeOne a fs ef).err with
    | some e =>
      rw [write_cons_err hw] at h
      exact absurd h (by simp)
    | none =>
      rw [write_cons_ok hw] at h
      simp only at h
      rw [List.cons_append, write_cons_ok hw, write_cons_ok hw,
        write_append_ok a rest (writeOne a fs ef).fs l₂ h]
      simp

/-- Executing an appended plan whose first half fails stops where the
first half stopped. -/
theorem write_append_err (a : ZipArchive) :
    ∀ (l₁ : List ExtractedFile) (fs : FS), ∀ (l₂ : List ExtractedFile) (e : ExtractError),
      (write_extracted_files a fs l₁).err = some e →
      write_extracted_files a fs (l₁ ++ l₂) = write_extracted_files a fs l₁
  | [], fs, l₂, e, h => by simp [write_extracted_files] at h
  | ef :: rest, fs, l₂, e, h => by
    cases hw : (writeOne a fs ef).err with
    | some e' =>
      rw [List.cons_append, write_cons_err hw, write_cons_err hw]
    | none =>
      rw [write_cons_ok hw] at h
      simp only at h
      rw [List.cons_append, write_cons_ok hw, write_cons_ok hw,
        write_append_err a rest (writeOne a fs ef).fs l₂ e h]

/-! ## Resolver shape lemmas -/

/-- Components surviving normalization are normal components: neither
empty nor a dot segment, provided the accumulator only held such. -/
theorem normalizeComponents_forall :
    ∀ (l acc res : List String), normalizeComponents l acc = some res →
      (∀ c ∈ acc, ¬(c = "" ∨ c = "." ∨ c = "..")) →
      ∀ c ∈ res, ¬(c = "" ∨ c = "." ∨ c = "..")
  | [], acc, res, h, hacc => by
    simp only [normalizeComponents, Option.some.injEq] at h
    subst h
    intro c hc
    exact hacc c (List.mem_reverse.mp hc)
  | x :: l, acc, res, h, hacc => by
    simp only [normalizeComponents] at h
    by_cases h1 : x = "" ∨ x = "."
    · rw [if_pos h1] at h
      exact normalizeComponents_forall l acc res h hacc
    · rw [if_neg h1] at h
      by_cases h2 : x = ".."
      · rw [if_pos h2] at h
        cases acc with
        | nil => cases h
        | cons y acc' =>
          exact normalizeComponents_forall l acc' res h
            (fun c hc => hacc c (List.mem_cons_of_mem y hc))
      · rw [if_neg h2] at h
        refine normalizeComponents_forall l (x :: acc) res h ?_
        intro c hc
        rcases List.mem_cons.mp hc with rfl | hc'
        · intro hbad
          rcases hbad with h' | h' | h'
          · exact h1 (Or.inl h')
          · exact h1 (Or.inr h')
          · exact h2 h'
        · exact hacc c hc'

/-- A successfully resolved name yields a nonempty list of normal
components (no empty, `.` or `..` segment). -/
theorem enclosed_name_shape {name : String} {comps : List String}
    (h : enclosed_name name = some comps) :
    comps ≠ [] ∧ ∀ c ∈ comps, ¬(c = "" ∨ c = "." ∨ c = "..") := by
  unfold enclosed_name at h
  split at h
  · cases h
  · split at h
    · cases h
    · split at h
      · cases h
      · next hne heq =>
        cases h
        exact ⟨hne, normalizeComponents_forall _ [] _ heq (fun c hc => by cases hc)⟩
      · cases h

/-! ## Plan membership lemmas -/

/-- A plan entry produced for index `i` records `i` as its index. -/
theorem planStep_index {a : ZipArchive} {d : Path} {i : Nat} {ef : ExtractedFile}
    (h : planStep a d i = some ef) : ef.index = i := by
  unfold planStep at h
  split at h
  · split at h
    · cases h
      rfl
    · cases h
  · cases h

/-- Inversion of a successful plan step: the entry's metadata was fetched
successfully, its name resolved, and the output path is the destination
joined with the resolved components. -/
theorem planStep_shape {a : ZipArchive} {d : Path} {i : Nat} {ef : ExtractedFile}
    (h : planStep a d i = some ef) :
    ∃ e comps, a.entries.get? i = some (Except.ok e) ∧
      enclosed_name e.name = some comps ∧
      ef.path = d ++ comps ∧
      ef.kind = (if endsWithSlash e.name then FileKind.Directory else FileKind.File e.size) := by
  unfold planStep at h
  split at h
  · next e heq =>
    split at h
    · next comps hname =>
      cases h
      exact ⟨e, comps, heq, hname, rfl, rfl⟩
    · cases h
  · cases h

/-- Membership in the extraction plan, characterized by `planStep`. -/
theorem mem_get_extracted_files {a : ZipArchive} {d : Path} {ef : ExtractedFile} :
    ef ∈ get_extracted_files a d ↔
      ef.index < a.entries.length ∧ planStep a d ef.index = some ef := by
  unfold get_extracted_files
  rw [List.mem_filterMap]
  constructor
  · rintro ⟨i, hi, hstep⟩
    have hidx : ef.index = i := planStep_index hstep
    rw [hidx]
    exact ⟨List.mem_range.mp hi, hstep⟩
  · rintro ⟨h1, h2⟩
    exact ⟨ef.index, List.mem_range.mpr h1, h2⟩


/-- No plan entry carries an index whose plan step yielded nothing. -/
theorem plan_skips_index {a : ZipArchive} {d : Path} {i : Nat}
    (h : planStep a d i = none) :
    ∀ ef ∈ get_extracted_files a d, ef.index ≠ i := by
  intro ef hef heq
  obtain ⟨-, hstep⟩ := mem_get_extracted_files.mp hef
  rw [heq, h] at hstep
  cases hstep

/-- A metadata fetch error makes the plan step yield nothing. -/
theorem planStep_none_of_metadata_error {a : ZipArchive} {d : Path} {i : Nat}
    {z : ZipError} (hz : a.entries.get? i = some (Except.error z)) :
    planStep a d i = none := by
  unfold planStep
  rw [hz]

/-- An unresolvable name makes the plan step yield nothing. -/
theorem planStep_none_of_unresolved {a : ZipArchive} {d : Path} {i : Nat}
    {e : ZipEntry} (hget : a.entries.get? i = some (Except.ok e))
    (hname : enclosed_name e.name = none) :
    planStep a d i = none := by
  unfold planStep
  rw [hget]
  simp only [hname]

/-- Every event of a single write step targets that entry's path. -/
theorem writeOne_events_path (a : ZipArchive) (fs : FS) (ef : ExtractedFile) :
    ∀ ev ∈ (writeOne a fs ef).events, ev.path = ef.path := by
  intro ev h
  unfold writeOne at h
  split at h
  · split at h
    · simp at h
    · split at h <;> (simp at h; subst h; rfl)
  · split at h
    · simp at h
      subst h
      rfl
    · split at h
      · split at h <;> (simp at h; subst h; rfl)
      · simp at h
        subst h
        rfl
      · simp at h
        subst h
        rfl

/-- Every event of the write pass targets the path of some entry of the
plan it executes. -/
theorem write_events_in_plan (a : ZipArchive) :
    ∀ (l : List ExtractedFile) (fs : FS) (ev : FsEvent),
      ev ∈ (write_extracted_files a fs l).events → ∃ ef ∈ l, ev.path = ef.path
  | [], fs, ev, h => by simp [write_extracted_files] at h
  | ef :: rest, fs, ev, h => by
    cases hw : (writeOne a fs ef).err with
    | some e =>
      rw [write_cons_err hw] at h
      exact ⟨ef, List.mem_cons_self ef rest, writeOne_events_path a fs ef ev h⟩
    | none =>
      rw [write_cons_ok hw] at h
      simp only at h
      rcases List.mem_append.mp h with h1 | h2
      · exact ⟨ef, List.mem_cons_self ef rest, writeOne_events_path a fs ef ev h1⟩
      · obtain ⟨ef', hmem, hpath⟩ :=
          write_events_in_plan a rest (writeOne a fs ef).fs ev h2
        exact ⟨ef', List.mem_cons_of_mem ef hmem, hpath⟩

/-- A sample two-entry archive (one directory, one file) used by the
concrete witnesses. -/
def demoArchive : ZipArchive :=
  ⟨[Except.ok ⟨"d/", 0, StreamData.ok []⟩,
    Except.ok ⟨"a.txt", 2, StreamData.ok [104, 105]⟩]⟩

/-- A sample initial filesystem: the root and the destination `out`. -/
def demoFS : FS := ⟨[[], ["out"]], []⟩

/-! ## Claim C2 — missing-parent handling -/

/-- C2 (code bug evidence): the claim says extraction creates all missing
ancestor directories before writing a file, so an archive whose only entry
is `"a/b/c.txt"` still gets the file written.  The code's `File` branch
calls `fs::File::create` without creating ancestors: on the archive
`["a/b/c.txt"]`, extracted into an existing empty destination `out`, the
entry is planned but execution fails with a NotFound I/O error and the
file is never written. -/
theorem c2_missing_parents_failing_input :
    get_extracted_files ⟨[Except.ok ⟨"a/b/c.txt", 2, StreamData.ok [104, 105]⟩]⟩ ["out"] =
      [⟨["out", "a", "b", "c.txt"], FileKind.File 2, 0⟩] ∧
    ((ZipExtractor.new ⟨[Except.ok ⟨"a/b/c.txt", 2, StreamData.ok [104, 105]⟩]⟩
        ["out"] false).extract ⟨[[], ["out"]], []⟩).err =
      some (ExtractError.ioError IoErrorKind.notFound) ∧
    (((ZipExtractor.new ⟨[Except.ok ⟨"a/b/c.txt", 2, StreamData.ok [104, 105]⟩]⟩
        ["out"] false).extract ⟨[[], ["out"]], []⟩).fs).fileContent
      ["out", "a", "b", "c.txt"] = none := by
  refine ⟨by decide, by decide, by decide⟩

/-! ## Claim C3 — which failures skip and which abort -/

/-- C3 (counterexample): the claim says an archive-format error while
fetching an entry's metadata at a valid index is fatal and aborts the
run.  In the code, `by_index(i).ok()?` inside `filter_map` swallows the
error: on an archive whose single index 0 yields a `ZipError`, the entry
is silently skipped (empty plan) and extraction succeeds. -/
theorem c3_metadata_error_not_fatal :
    (⟨[Except.error 7]⟩ : ZipArchive).entries.get? 0 = some (Except.error 7) ∧
    ((ZipExtractor.new ⟨[Except.error 7]⟩ ["out"] false).extract
        ⟨[[], ["out"]], []⟩).err = none ∧
    ((ZipExtractor.new ⟨[Except.error 7]⟩ ["out"] false).extract
        ⟨[[], ["out"]], []⟩).plan = [] := by
  refine ⟨rfl, by decide, by decide⟩

/-- C3 (amended): during enumeration an entry is skipped, with no error
raised, when its name fails resolution or when fetching its metadata
fails; enumeration itself never aborts the run — every index with good
metadata and a resolvable name is planned, and the run's only error
channel is the write pass. -/
theorem c3_enumeration_skip_policy :
    (∀ (a : ZipArchive) (d : Path) (i : Nat) (z : ZipError),
        a.entries.get? i = some (Except.error z) →
        ∀ ef ∈ get_extracted_files a d, ef.index ≠ i) ∧
    (∀ (a : ZipArchive) (d : Path) (i : Nat) (e : ZipEntry),
        a.entries.get? i = some (Except.ok e) → enclosed_name e.name = none →
        ∀ ef ∈ get_extracted_files a d, ef.index ≠ i) ∧
    (∀ (a : ZipArchive) (d : Path) (i : Nat) (e : ZipEntry) (comps : List String),
        i < a.entries.length →
        a.entries.get? i = some (Except.ok e) → enclosed_name e.name = some comps →
        ∃ ef ∈ get_extracted_files a d, ef.index = i) ∧
    (∀ (x : ZipExtractor) (fs : FS),
        (x.extract fs).plan = get_extracted_files x.archive x.output_dir ∧
        (x.extract fs).err =
          (write_extracted_files x.archive fs
            (get_extracted_files x.archive x.output_dir)).err) := by
  refine ⟨?_, ?_, ?_, ?_⟩
  · intro a d i z hz
    exact plan_skips_index (planStep_none_of_metadata_error hz)
  · intro a d i e hget hname
    exact plan_skips_index (planStep_none_of_unresolved hget hname)
  · intro a d i e comps hlt hget hname
    refine ⟨⟨d ++ comps,
      (if endsWithSlash e.name then FileKind.Directory else FileKind.File e.size), i⟩,
      mem_get_extracted_files.mpr ⟨hlt, ?_⟩, rfl⟩
    unfold planStep
    rw [hget]
    simp only [hname]
  · intro x fs
    exact ⟨rfl, rfl⟩

/-- C3 (witness for the amended theorem): on a three-entry archive with a
metadata error at index 0, an unresolvable name at index 1 and a good
entry at index 2, the amended theorem's three enumeration conclusions
hold at those concrete indices. -/
theorem c3_enumeration_skip_policy_witness :
    (∀ ef ∈ get_extracted_files
        ⟨[Except.error 7, Except.ok ⟨"../esc", 1, StreamData.ok [1]⟩,
          Except.ok ⟨"ok.txt", 1, StreamData.ok [2]⟩]⟩ ["out"], ef.index ≠ 0) ∧
    (∀ ef ∈ get_extracted_files
        ⟨[Except.error 7, Except.ok ⟨"../esc", 1, StreamData.ok [1]⟩,
          Except.ok ⟨"ok.txt", 1, StreamData.ok [2]⟩]⟩ ["out"], ef.index ≠ 1) ∧
    (∃ ef ∈ get_extracted_files
        ⟨[Except.error 7, Except.ok ⟨"../esc", 1, StreamData.ok [1]⟩,
          Except.ok ⟨"ok.txt", 1, StreamData.ok [2]⟩]⟩ ["out"], ef.index = 2) :=
  ⟨c3_enumeration_skip_policy.1 _ ["out"] 0 7 rfl,
   c3_enumeration_skip_policy.2.1 _ ["out"] 1 ⟨"../esc", 1, StreamData.ok [1]⟩ rfl (by decide),
   c3_enumeration_skip_policy.2.2.1 _ ["out"] 2 ⟨"ok.txt", 1, StreamData.ok [2]⟩
     ["ok.txt"] (by decide) rfl (by decide)⟩

/-! ## Claim C7 — progress reporter sizing -/

/-- C7 (counterexample): the claim says the progress reporter is
initialized only after full enumeration and sized to the plan length.  In
the code, `ZipExtractor::new` builds `ProgressBar::new(archive.len())`
at construction time: on a two-entry archive whose first name is
unresolvable, the bar's total is 2 while the plan length is 1. -/
theorem c7_progress_sized_to_archive_len :
    (ZipExtractor.new ⟨[Except.ok ⟨"../x", 1, StreamData.ok [1]⟩,
        Except.ok ⟨"a.txt", 1, StreamData.ok [2]⟩]⟩ ["out"] true).progress_bar =
      some { total := 2, message := "Extracting files..." } ∧
    (get_extracted_files ⟨[Except.ok ⟨"../x", 1, StreamData.ok [1]⟩,
        Except.ok ⟨"a.txt", 1, StreamData.ok [2]⟩]⟩ ["out"]).length = 1 ∧
    (ZipExtractor.new ⟨[Except.ok ⟨"../x", 1, StreamData.ok [1]⟩,
        Except.ok ⟨"a.txt", 1, StreamData.ok [2]⟩]⟩ ["out"] true).progress_bar.map
        ProgressBar.total ≠
      some (get_extracted_files ⟨[Except.ok ⟨"../x", 1, StreamData.ok [1]⟩,
        Except.ok ⟨"a.txt", 1, StreamData.ok [2]⟩]⟩ ["out"]).length := by
  refine ⟨by decide, by decide, by decide⟩

/-- C7 (amended): the progress reporter is initialized at construction
time — before any enumeration — and is sized to the raw archive entry
count, not to the plan length; with progress disabled no reporter exists. -/
theorem c7_progress_initialized_at_construction :
    ∀ (a : ZipArchive) (d : Path),
      (ZipExtractor.new a d true).progress_bar =
        some { total := a.entries.length, message := "Extracting files..." } ∧
      (ZipExtractor.new a d false).progress_bar = none :=
  fun _ _ => ⟨rfl, rfl⟩

/-! ## Claim C9 — the default output directory -/

/-- C9 (counterexample): the claim says the default destination is a
sibling directory of the input archive named after its stem.  The code
computes `PathBuf::from(".").join(file_stem)`: for input `tmp/foo.zip`
it yields `./foo`, not the sibling `tmp/foo`, and the two differ even
after dropping `.` components. -/
theorem c9_default_dir_not_sibling :
    resolveOutputDir { input := "tmp/foo.zip", output_dir := none, progress := false } =
      some [".", "foo"] ∧
    siblingOutputDir "tmp/foo.zip" = some ["tmp", "foo"] ∧
    (resolveOutputDir { input := "tmp/foo.zip", output_dir := none, progress := false }).map
        (List.filter (fun c => !(c == "."))) ≠
      (siblingOutputDir "tmp/foo.zip").map (List.filter (fun c => !(c == "."))) := by
  refine ⟨by decide, by decide, by decide⟩

/-- C9 (amended): when the caller omits the output directory, the default
destination is the directory named after the archive's file stem under
the process's current working directory (`./<stem>`), not a sibling of
the input archive. -/
theorem c9_default_dir_under_cwd :
    ∀ (input st : String) (pr : Bool), file_stem input = some st →
      resolveOutputDir { input := input, output_dir := none, progress := pr } =
        some [".", st] := by
  intro input st pr h
  simp [resolveOutputDir, defaultOutputDir, h]

/-- C9 (witness): the amended theorem applied to the input `tmp/foo.zip`,
whose file stem is `foo`. -/
theorem c9_default_dir_under_cwd_witness :
    file_stem "tmp/foo.zip" = some "foo" ∧
    resolveOutputDir { input := "tmp/foo.zip", output_dir := none, progress := false } =
      some [".", "foo"] :=
  ⟨by decide, c9_default_dir_under_cwd "tmp/foo.zip" "foo" false (by decide)⟩

/-! ## Claim C10 — panic when the input has no file stem -/

/-- C10: when the output directory is omitted and the input path has no
file stem (`".."` or `"/"`), the default-directory computation has no
value at all — `none` models the panic of `file_stem().unwrap()` — rather
than producing a descriptive `ExtractError`. -/
theorem c10_no_stem_panics :
    file_stem ".." = none ∧ file_stem "/" = none ∧
    resolveOutputDir { input := "..", output_dir := none, progress := false } = none ∧
    resolveOutputDir { input := "/", output_dir := none, progress := false } = none := by
  refine ⟨by decide, by decide, by decide, by decide⟩


/-! ## Claim C1 — traversal safety -/

/-- C1: an entry whose declared name fails resolution (absolute, empty,
or escaping via `..`) gets no plan entry for its index, so extract
performs no filesystem write for it — every mutation attempt of the whole
run targets the path of some planned entry; and every planned output path
is the destination root joined with the nonempty, dot-free normalized
name, hence a strict descendant of the destination root. -/
theorem c1_traversal_safety :
    (∀ (a : ZipArchive) (d : Path) (i : Nat) (e : ZipEntry),
        a.entries.get? i = some (Except.ok e) → enclosed_name e.name = none →
        ∀ ef ∈ get_extracted_files a d, ef.index ≠ i) ∧
    (∀ (a : ZipArchive) (d : Path), ∀ ef ∈ get_extracted_files a d,
        ∃ e comps, a.entries.get? ef.index = some (Except.ok e) ∧
          enclosed_name e.name = some comps ∧ ef.path = d ++ comps ∧
          comps ≠ [] ∧ ∀ c ∈ comps, ¬(c = "" ∨ c = "." ∨ c = "..")) ∧
    (∀ (x : ZipExtractor) (fs : FS), ∀ ev ∈ (x.extract fs).events,
        ∃ ef ∈ get_extracted_files x.archive x.output_dir, ev.path = ef.path) := by
  refine ⟨?_, ?_, ?_⟩
  · intro a d i e hget hname
    exact plan_skips_index (planStep_none_of_unresolved hget hname)
  · intro a d ef hef
    obtain ⟨-, hstep⟩ := mem_get_extracted_files.mp hef
    obtain ⟨e, comps, hget, hname, hpath, -⟩ := planStep_shape hstep
    obtain ⟨hne, hforall⟩ := enclosed_name_shape hname
    exact ⟨e, comps, hget, hname, hpath, hne, hforall⟩
  · intro x fs ev h
    exact write_events_in_plan x.archive _ fs ev h

/-- C1 (witness): the classic traversal name `../../etc/passwd` resolves
to nothing, and on the archive holding only that entry no plan entry has
index 0. -/
theorem c1_traversal_safety_witness :
    (⟨[Except.ok ⟨"../../etc/passwd", 3, StreamData.ok [1]⟩]⟩ : ZipArchive).entries.get? 0 =
      some (Except.ok ⟨"../../etc/passwd", 3, StreamData.ok [1]⟩) ∧
    enclosed_name "../../etc/passwd" = none ∧
    (∀ ef ∈ get_extracted_files
        ⟨[Except.ok ⟨"../../etc/passwd", 3, StreamData.ok [1]⟩]⟩ ["out"],
      ef.index ≠ 0) :=
  ⟨rfl, by decide,
   c1_traversal_safety.1 _ ["out"] 0 ⟨"../../etc/passwd", 3, StreamData.ok [1]⟩
     rfl (by decide)⟩

/-! ## Claim C6 — two-pass structure -/

/-- C6: `extract` is two-pass — the plan is exactly
`get_extracted_files`, which enumerates and resolves every index of
`0 .. archive.len()` in order and does not depend on the filesystem, the
whole result factors through executing that plan, and execution is
sequential in plan order: running an appended plan runs the first part
and continues the second from the filesystem the first produced. -/
theorem c6_two_pass :
    (∀ (x : ZipExtractor) (fs : FS),
        x.extract fs =
          { plan := get_extracted_files x.archive x.output_dir,
            fs := (write_extracted_files x.archive fs
              (get_extracted_files x.archive x.output_dir)).fs,
            events := (write_extracted_files x.archive fs
              (get_extracted_files x.archive x.output_dir)).events,
            err := (write_extracted_files x.archive fs
              (get_extracted_files x.archive x.output_dir)).err }) ∧
    (∀ (x : ZipExtractor) (fs fs' : FS), (x.extract fs).plan = (x.extract fs').plan) ∧
    (∀ (a : ZipArchive) (d : Path),
        get_extracted_files a d = (List.range a.entries.length).filterMap (planStep a d)) ∧
    (∀ (a : ZipArchive) (fs : FS) (l₁ l₂ : List ExtractedFile),
        (write_extracted_files a fs l₁).err = none →
        write_extracted_files a fs (l₁ ++ l₂) =
          ⟨(write_extracted_files a (write_extracted_files a fs l₁).fs l₂).fs,
           (write_extracted_files a fs l₁).events ++
             (write_extracted_files a (write_extracted_files a fs l₁).fs l₂).events,
           (write_extracted_files a (write_extracted_files a fs l₁).fs l₂).err⟩) :=
  ⟨fun _ _ => rfl, fun _ _ _ => rfl, fun _ _ => rfl,
   fun a fs l₁ l₂ h => write_append_ok a l₁ fs l₂ h⟩

/-- C6 (witness): the sequential-execution equation instantiated on the
sample archive, with a one-directory first half and a one-file second
half. -/
theorem c6_two_pass_witness :
    (write_extracted_files demoArchive demoFS
        [⟨["out", "d"], FileKind.Directory, 0⟩]).err = none ∧
    write_extracted_files demoArchive demoFS
        ([⟨["out", "d"], FileKind.Directory, 0⟩] ++
          [⟨["out", "a.txt"], FileKind.File 2, 1⟩]) =
      ⟨(write_extracted_files demoArchive
          (write_extracted_files demoArchive demoFS
            [⟨["out", "d"], FileKind.Directory, 0⟩]).fs
          [⟨["out", "a.txt"], FileKind.File 2, 1⟩]).fs,
       (write_extracted_files demoArchive demoFS
          [⟨["out", "d"], FileKind.Directory, 0⟩]).events ++
         (write_extracted_files demoArchive
            (write_extracted_files demoArchive demoFS
              [⟨["out", "d"], FileKind.Directory, 0⟩]).fs
            [⟨["out", "a.txt"], FileKind.File 2, 1⟩]).events,
       (write_extracted_files demoArchive
          (write_extracted_files demoArchive demoFS
            [⟨["out", "d"], FileKind.Directory, 0⟩]).fs
          [⟨["out", "a.txt"], FileKind.File 2, 1⟩]).err⟩ :=
  ⟨by decide,
   c6_two_pass.2.2.2 demoArchive demoFS
     [⟨["out", "d"], FileKind.Directory, 0⟩]
     [⟨["out", "a.txt"], FileKind.File 2, 1⟩] (by decide)⟩


/-! ## Filesystem lemmas -/

/-- Filtering out the key `p` does not change a lookup for `q ≠ p`. -/
theorem find?_filter_ne (p q : Path) :
    ∀ (l : List (Path × List Nat)), q ≠ p →
      (l.filter (fun kv => !(kv.1 == p))).find? (fun kv => kv.1 == q) =
        l.find? (fun kv => kv.1 == q)
  | [], _ => rfl
  | kv :: l, hne => by
    by_cases hkp : kv.1 = p
    · have h1 : (kv.1 == p) = true := beq_iff_eq.mpr hkp
      have h2 : (kv.1 == q) = false := by
        rw [beq_eq_false_iff_ne, hkp]
        exact fun h => hne h.symm
      rw [List.filter_cons]
      simp only [h1, Bool.not_true, Bool.false_eq_true, if_false]
      rw [List.find?_cons, h2]
      exact find?_filter_ne p q l hne
    · have h1 : (kv.1 == p) = false := beq_eq_false_iff_ne.mpr hkp
      rw [List.filter_cons]
      simp only [h1, Bool.not_false, if_true]
      rw [List.find?_cons, List.find?_cons]
      cases h2 : (kv.1 == q) with
      | true => rfl
      | false => exact find?_filter_ne p q l hne

/-- Writing a file then reading it back yields the written contents. -/
theorem setFile_fileContent_self (fs : FS) (p : Path) (c : List Nat) :
    (fs.setFile p c).fileContent p = some c := by
  unfold FS.setFile FS.fileContent
  rw [List.find?_cons]
  simp

/-- Writing a file leaves every other path's contents unchanged. -/
theorem setFile_fileContent_ne (fs : FS) {p q : Path} (c : List Nat) (h : q ≠ p) :
    (fs.setFile p c).fileContent q = fs.fileContent q := by
  unfold FS.setFile FS.fileContent
  rw [List.find?_cons]
  have h2 : ((p, c).1 == q) = false := beq_eq_false_iff_ne.mpr (fun hh => h hh.symm)
  rw [h2]
  simp only
  rw [find?_filter_ne p q fs.files h]

/-- Writing a file does not change the directory set. -/
theorem setFile_isDirB (fs : FS) (p : Path) (c : List Nat) (q : Path) :
    (fs.setFile p c).isDirB q = fs.isDirB q := rfl

/-- After writing, a file exists at the written path. -/
theorem setFile_hasFileB_self (fs : FS) (p : Path) (c : List Nat) :
    (fs.setFile p c).hasFileB p = true := by
  rw [FS.hasFileB, setFile_fileContent_self]
  rfl

/-- Writing a file preserves file existence at every other path. -/
theorem setFile_hasFileB_ne (fs : FS) {p q : Path} (c : List Nat) (h : q ≠ p) :
    (fs.setFile p c).hasFileB q = fs.hasFileB q := by
  rw [FS.hasFileB, setFile_fileContent_ne fs c h]
  rfl

/-- A directory exists iff its path is in the directory set. -/
theorem isDirB_iff {fs : FS} {p : Path} : fs.isDirB p = true ↔ p ∈ fs.dirs := by
  simp [FS.isDirB, List.contains, List.elem_iff]

/-- Inversion of a successful `fs::File::create`. -/
theorem fileCreate_ok {fs fs1 : FS} {p : Path} (h : fileCreate fs p = Except.ok fs1) :
    fs1 = fs.setFile p [] ∧ fs.isDirB p = false ∧ fs.isDirB p.dropLast = true := by
  unfold fileCreate at h
  split at h
  · cases h
  · next hnd =>
    split at h
    · next hpd =>
      cases h
      simp only [Bool.not_eq_true] at hnd
      exact ⟨rfl, hnd, hpd⟩
    · cases h

/-- Inversion of a successful `fs::create_dir_all`. -/
theorem createDirAll_ok {fs fs' : FS} {p : Path} (h : createDirAll fs p = Except.ok fs') :
    fs' = { fs with dirs := p.inits ++ fs.dirs } ∧
      (p.inits.any fun q => fs.hasFileB q) = false := by
  unfold createDirAll at h
  split at h
  · cases h
  · next hg =>
    cases h
    simp only [Bool.not_eq_true] at hg
    exact ⟨rfl, hg⟩

/-- A list is an initial segment of itself. -/
theorem self_mem_inits {α : Type} (l : List α) : l ∈ l.inits :=
  (List.mem_inits l l).mpr ⟨[], List.append_nil l⟩

/-- The write step of a planned file entry whose stream is intact. -/
theorem writeOne_file_eq {a : ZipArchive} {fs : FS} {ef : ExtractedFile} {s : Nat}
    {fs1 : FS} {e : ZipEntry} {bytes : List Nat}
    (hk : ef.kind = FileKind.File s)
    (hfc : fileCreate fs ef.path = Except.ok fs1)
    (hg : a.entries.get? ef.index = some (Except.ok e))
    (hs : e.stream = StreamData.ok bytes) :
    writeOne a fs ef =
      ⟨fs1.setFile ef.path bytes, [FsEvent.createFile ef.path], none⟩ := by
  unfold writeOne
  simp only [hk, hfc, hg, hs]

/-- The write step of a planned file entry whose stream fails mid-copy:
the file holds the bytes written so far and the step reports the error. -/
theorem writeOne_file_corrupt_eq {a : ZipArchive} {fs : FS} {ef : ExtractedFile} {s : Nat}
    {fs1 : FS} {e : ZipEntry} {w : List Nat} {c : Nat}
    (hk : ef.kind = FileKind.File s)
    (hfc : fileCreate fs ef.path = Except.ok fs1)
    (hg : a.entries.get? ef.index = some (Except.ok e))
    (hs : e.stream = StreamData.corrupt w c) :
    writeOne a fs ef =
      ⟨fs1.setFile ef.path w, [FsEvent.createFile ef.path],
       some (ExtractError.ioError (IoErrorKind.streamFailed c))⟩ := by
  unfold writeOne
  simp only [hk, hfc, hg, hs]

/-- Inversion of a successful write step on a file entry. -/
theorem writeOne_file_inv {a : ZipArchive} {fs : FS} {ef : ExtractedFile} {s : Nat}
    (hk : ef.kind = FileKind.File s)
    (herr : (writeOne a fs ef).err = none) :
    ∃ e bytes, a.entries.get? ef.index = some (Except.ok e) ∧
      e.stream = StreamData.ok bytes ∧
      fs.isDirB ef.path = false ∧ fs.isDirB ef.path.dropLast = true ∧
      writeOne a fs ef =
        ⟨(fs.setFile ef.path []).setFile ef.path bytes,
         [FsEvent.createFile ef.path], none⟩ := by
  cases hfc : fileCreate fs ef.path with
  | error k =>
    exfalso
    have : (writeOne a fs ef).err =
        some (ExtractError.ioError k) := by
      unfold writeOne
      rw [hk, hfc]
    rw [this] at herr
    cases herr
  | ok fs1 =>
    obtain ⟨rfl, hnd, hpd⟩ := fileCreate_ok hfc
    cases hg : a.entries.get? ef.index with
    | none =>
      exfalso
      have : (writeOne a fs ef).err = some (ExtractError.zipError 0) := by
        unfold writeOne
        rw [hk, hfc, hg]
      rw [this] at herr
      cases herr
    | some x =>
      cases x with
      | error z =>
        exfalso
        have : (writeOne a fs ef).err = some (ExtractError.zipError z) := by
          unfold writeOne
          rw [hk, hfc, hg]
        rw [this] at herr
        cases herr
      | ok e =>
        cases hs : e.stream with
        | corrupt w c =>
          exfalso
          have := writeOne_file_corrupt_eq hk hfc hg hs
          rw [this] at herr
          cases herr
        | ok bytes =>
          exact ⟨e, bytes, rfl, hs, hnd, hpd, writeOne_file_eq hk hfc hg hs⟩

/-- The write step of a directory entry whose path already exists is a
no-op success. -/
theorem writeOne_dir_exists {a : ZipArchive} {fs : FS} {ef : ExtractedFile}
    (hk : ef.kind = FileKind.Directory) (he : fs.existsB ef.path = true) :
    writeOne a fs ef = ⟨fs, [], none⟩ := by
  unfold writeOne
  rw [hk]
  simp only [he, if_true]

/-- The possible result filesystems of one write step. -/
theorem writeOne_fs_cases (a : ZipArchive) (fs : FS) (ef : ExtractedFile) :
    (writeOne a fs ef).fs = fs ∨
    (writeOne a fs ef).fs = { fs with dirs := ef.path.inits ++ fs.dirs } ∨
    ∃ c : List Nat,
      (writeOne a fs ef).fs = fs.setFile ef.path c ∨
      (writeOne a fs ef).fs = (fs.setFile ef.path []).setFile ef.path c := by
  unfold writeOne
  split
  · split
    · exact Or.inl rfl
    · split
      · next fs' heq =>
        obtain ⟨rfl, -⟩ := createDirAll_ok heq
        exact Or.inr (Or.inl rfl)
      · exact Or.inl rfl
  · split
    · exact Or.inl rfl
    · next fs1 heq =>
      obtain ⟨rfl, -, -⟩ := fileCreate_ok heq
      split
      · split
        · exact Or.inr (Or.inr ⟨_, Or.inr rfl⟩)
        · exact Or.inr (Or.inr ⟨_, Or.inr rfl⟩)
      · exact Or.inr (Or.inr ⟨[], Or.inl rfl⟩)
      · exact Or.inr (Or.inr ⟨[], Or.inl rfl⟩)


/-- A write step for an entry that is not a file at `p` leaves the
contents at `p` unchanged (directory steps never touch file contents). -/
theorem writeOne_fileContent_preserved (a : ZipArchive) (fs : FS) (ef : ExtractedFile)
    (p : Path) (hnf : ef.path ≠ p) :
    ((writeOne a fs ef).fs).fileContent p = fs.fileContent p := by
  rcases writeOne_fs_cases a fs ef with h | h | ⟨c, h | h⟩
  · rw [h]
  · rw [h]
    rfl
  · rw [h, setFile_fileContent_ne fs c hnf.symm]
  · rw [h, setFile_fileContent_ne _ c hnf.symm, setFile_fileContent_ne fs [] hnf.symm]

/-- Directory write steps never change file contents at all. -/
theorem writeOne_dir_fileContent_preserved (a : ZipArchive) (fs : FS) (ef : ExtractedFile)
    (hk : ef.kind = FileKind.Directory) (p : Path) :
    ((writeOne a fs ef).fs).fileContent p = fs.fileContent p := by
  unfold writeOne
  rw [hk]
  simp only
  split
  · rfl
  · split
    · next fs' heq =>
      obtain ⟨rfl, -⟩ := createDirAll_ok heq
      rfl
    · rfl

/-- Executing a plan containing no file entry at `p` leaves the contents
at `p` unchanged. -/
theorem write_fileContent_preserved (a : ZipArchive) :
    ∀ (l : List ExtractedFile) (fs : FS) (p : Path),
      (∀ ef ∈ l, ∀ s : Nat, ef.kind = FileKind.File s → ef.path ≠ p) →
      ((write_extracted_files a fs l).fs).fileContent p = fs.fileContent p
  | [], fs, p, _ => rfl
  | ef :: rest, fs, p, h => by
    have hone : ((writeOne a fs ef).fs).fileContent p = fs.fileContent p := by
      cases hk : ef.kind with
      | Directory => exact writeOne_dir_fileContent_preserved a fs ef hk p
      | File s =>
        exact writeOne_fileContent_preserved a fs ef p
          (h ef (List.mem_cons_self ef rest) s hk)
    cases hw : (writeOne a fs ef).err with
    | some e =>
      rw [write_cons_err hw]
      exact hone
    | none =>
      rw [write_cons_ok hw]
      simp only
      rw [write_fileContent_preserved a rest (writeOne a fs ef).fs p
        (fun ef' hm => h ef' (List.mem_cons_of_mem ef hm))]
      exact hone

/-! ## Claim C4 — mid-copy stream failure aborts -/

/-- C4: when a planned file entry's stream fails mid-copy, the run stops
there with the stream's fatal I/O error: the result is the same whatever
planned entries follow (none of them is extracted), and every path other
than the failing entry's keeps the contents it had after the successful
first half — entries already written stay on disk, with no rollback. -/
theorem c4_corrupt_stream_aborts :
    ∀ (a : ZipArchive) (fs : FS) (l₁ l₂ : List ExtractedFile) (ef : ExtractedFile)
      (s : Nat) (e : ZipEntry) (w : List Nat) (c : Nat) (fs1 : FS),
      ef.kind = FileKind.File s →
      a.entries.get? ef.index = some (Except.ok e) →
      e.stream = StreamData.corrupt w c →
      (write_extracted_files a fs l₁).err = none →
      fileCreate (write_extracted_files a fs l₁).fs ef.path = Except.ok fs1 →
      write_extracted_files a fs (l₁ ++ ef :: l₂) =
        ⟨fs1.setFile ef.path w,
         (write_extracted_files a fs l₁).events ++ [FsEvent.createFile ef.path],
         some (ExtractError.ioError (IoErrorKind.streamFailed c))⟩ ∧
      ∀ q : Path, q ≠ ef.path →
        (fs1.setFile ef.path w).fileContent q =
          ((write_extracted_files a fs l₁).fs).fileContent q := by
  intro a fs l₁ l₂ ef s e w c fs1 hk hg hs herr hfc
  have hone := writeOne_file_corrupt_eq hk hfc hg hs
  constructor
  · rw [write_append_ok a l₁ fs (ef :: l₂) herr,
      write_cons_err (show (writeOne a (write_extracted_files a fs l₁).fs ef).err =
        some (ExtractError.ioError (IoErrorKind.streamFailed c)) by rw [hone]),
      hone]
  · intro q hq
    obtain ⟨rfl, -, -⟩ := fileCreate_ok hfc
    rw [setFile_fileContent_ne _ w hq, setFile_fileContent_ne _ [] hq]

/-- The archive used by the corruption witnesses: a good file, a file
whose stream fails after one byte, and a further good file. -/
def corruptArchive : ZipArchive :=
  ⟨[Except.ok ⟨"good.txt", 1, StreamData.ok [1]⟩,
    Except.ok ⟨"bad.txt", 5, StreamData.corrupt [9] 3⟩,
    Except.ok ⟨"later.txt", 1, StreamData.ok [7]⟩]⟩

/-- C4 (witness): on `corruptArchive`, writing `good.txt` succeeds, the
create of `bad.txt` succeeds, and the theorem yields the aborted run with
`later.txt` never extracted. -/
theorem c4_corrupt_stream_aborts_witness :
    (write_extracted_files corruptArchive demoFS
        [⟨["out", "good.txt"], FileKind.File 1, 0⟩]).err = none ∧
    fileCreate (write_extracted_files corruptArchive demoFS
        [⟨["out", "good.txt"], FileKind.File 1, 0⟩]).fs ["out", "bad.txt"] =
      Except.ok ((write_extracted_files corruptArchive demoFS
        [⟨["out", "good.txt"], FileKind.File 1, 0⟩]).fs.setFile ["out", "bad.txt"] []) ∧
    write_extracted_files corruptArchive demoFS
        ([⟨["out", "good.txt"], FileKind.File 1, 0⟩] ++
          ⟨["out", "bad.txt"], FileKind.File 5, 1⟩ ::
            [⟨["out", "later.txt"], FileKind.File 1, 2⟩]) =
      ⟨((write_extracted_files corruptArchive demoFS
          [⟨["out", "good.txt"], FileKind.File 1, 0⟩]).fs.setFile
            ["out", "bad.txt"] []).setFile ["out", "bad.txt"] [9],
       (write_extracted_files corruptArchive demoFS
          [⟨["out", "good.txt"], FileKind.File 1, 0⟩]).events ++
         [FsEvent.createFile ["out", "bad.txt"]],
       some (ExtractError.ioError (IoErrorKind.streamFailed 3))⟩ :=
  ⟨by decide, rfl,
   (c4_corrupt_stream_aborts corruptArchive demoFS
     [⟨["out", "good.txt"], FileKind.File 1, 0⟩]
     [⟨["out", "later.txt"], FileKind.File 1, 2⟩]
     ⟨["out", "bad.txt"], FileKind.File 5, 1⟩ 5
     ⟨"bad.txt", 5, StreamData.corrupt [9] 3⟩ [9] 3
     ((write_extracted_files corruptArchive demoFS
       [⟨["out", "good.txt"], FileKind.File 1, 0⟩]).fs.setFile ["out", "bad.txt"] [])
     rfl rfl rfl (by decide) rfl).1⟩

/-! ## Claim C5 — duplicate names, last entry wins -/

/-- C5: plan order agrees with index order (entries appear in the plan
with strictly increasing archive indices), and when a plan's execution
succeeds, the contents at a path `p` are the full stream of the last
file entry of the plan whose output path is `p` — later entries win, and
whatever contents the path held before the run (a pre-existing file, or
an earlier duplicate) are overwritten. -/
theorem c5_last_entry_wins :
    (∀ (a : ZipArchive) (d : Path),
        (get_extracted_files a d).Pairwise (fun x y => x.index < y.index)) ∧
    (∀ (a : ZipArchive) (fs : FS) (l₁ l₂ : List ExtractedFile) (ef : ExtractedFile)
       (s : Nat) (e : ZipEntry) (bytes : List Nat),
        ef.kind = FileKind.File s →
        a.entries.get? ef.index = some (Except.ok e) →
        e.stream = StreamData.ok bytes →
        (∀ ef' ∈ l₂, ∀ s' : Nat, ef'.kind = FileKind.File s' → ef'.path ≠ ef.path) →
        (write_extracted_files a fs (l₁ ++ ef :: l₂)).err = none →
        ((write_extracted_files a fs (l₁ ++ ef :: l₂)).fs).fileContent ef.path =
          some bytes) := by
  constructor
  · intro a d
    refine List.Pairwise.filterMap (planStep a d) ?_ (List.pairwise_lt_range _)
    intro i j hij x hx y hy
    rw [Option.mem_def] at hx hy
    rw [planStep_index hx, planStep_index hy]
    exact hij
  · intro a fs l₁ l₂ ef s e bytes hk hg hs hl₂ herr
    cases h1 : (write_extracted_files a fs l₁).err with
    | some e' =>
      rw [write_append_err a l₁ fs (ef :: l₂) e' h1, h1] at herr
      cases herr
    | none =>
      rw [write_append_ok a l₁ fs (ef :: l₂) h1] at herr ⊢
      simp only at herr ⊢
      cases h2 : (writeOne a (write_extracted_files a fs l₁).fs ef).err with
      | some e' =>
        rw [write_cons_err h2] at herr
        simp at herr
      | none =>
        obtain ⟨e', bytes', hg', hs', -, -, hone⟩ := writeOne_file_inv hk h2
        have he : e' = e := Except.ok.inj (Option.some.inj (hg'.symm.trans hg))
        have hb : bytes' = bytes := by
          rw [he] at hs'
          exact StreamData.ok.inj (hs'.symm.trans hs)
        rw [hb] at hone
        rw [write_cons_ok h2]
        simp only
        rw [write_fileContent_preserved a l₂ _ ef.path
          (fun ef' hm s' hk' => hl₂ ef' hm s' hk'), hone]
        exact setFile_fileContent_self _ ef.path bytes

/-- C5 (witness): an archive with two file entries both named `x.txt`
and different contents — after a successful run the file holds the
second entry's bytes. -/
theorem c5_last_entry_wins_witness :
    ((⟨["out", "x.txt"], FileKind.File 1, 0⟩ : ExtractedFile).kind = FileKind.File 1) ∧
    (write_extracted_files
        ⟨[Except.ok ⟨"x.txt", 1, StreamData.ok [1]⟩,
          Except.ok ⟨"x.txt", 2, StreamData.ok [2, 3]⟩]⟩ demoFS
        ([⟨["out", "x.txt"], FileKind.File 1, 0⟩] ++
          ⟨["out", "x.txt"], FileKind.File 2, 1⟩ :: [])).err = none ∧
    ((write_extracted_files
        ⟨[Except.ok ⟨"x.txt", 1, StreamData.ok [1]⟩,
          Except.ok ⟨"x.txt", 2, StreamData.ok [2, 3]⟩]⟩ demoFS
        ([⟨["out", "x.txt"], FileKind.File 1, 0⟩] ++
          ⟨["out", "x.txt"], FileKind.File 2, 1⟩ :: [])).fs).fileContent
      ["out", "x.txt"] = some [2, 3] :=
  ⟨rfl, by decide,
   c5_last_entry_wins.2
     ⟨[Except.ok ⟨"x.txt", 1, StreamData.ok [1]⟩,
       Except.ok ⟨"x.txt", 2, StreamData.ok [2, 3]⟩]⟩ demoFS
     [⟨["out", "x.txt"], FileKind.File 1, 0⟩] []
     ⟨["out", "x.txt"], FileKind.File 2, 1⟩ 2
     ⟨"x.txt", 2, StreamData.ok [2, 3]⟩ [2, 3]
     rfl rfl rfl (fun ef' hm => by cases hm) (by decide)⟩


/-! ## Monotonicity and well-formedness of the write pass -/

/-- Monotone extension between filesystems: every directory and every
file of the first still exists in the second. -/
def FS.Ext (fs g : FS) : Prop :=
  (∀ p, fs.isDirB p = true → g.isDirB p = true) ∧
  (∀ p, fs.hasFileB p = true → g.hasFileB p = true)

/-- Extension is reflexive. -/
theorem Ext_refl (fs : FS) : fs.Ext fs := ⟨fun _ h => h, fun _ h => h⟩

/-- Extension is transitive. -/
theorem Ext_trans {f g h : FS} (h1 : f.Ext g) (h2 : g.Ext h) : f.Ext h :=
  ⟨fun p hp => h2.1 p (h1.1 p hp), fun p hp => h2.2 p (h1.2 p hp)⟩

/-- Extension preserves existence. -/
theorem Ext_existsB {f g : FS} (h : f.Ext g) {p : Path} (he : f.existsB p = true) :
    g.existsB p = true := by
  rw [FS.existsB, Bool.or_eq_true] at he ⊢
  rcases he with hd | hf
  · exact Or.inl (h.1 p hd)
  · exact Or.inr (h.2 p hf)

/-- Writing a file extends the filesystem. -/
theorem setFile_Ext (fs : FS) (p : Path) (c : List Nat) : fs.Ext (fs.setFile p c) := by
  constructor
  · intro q h
    rw [setFile_isDirB]
    exact h
  · intro q h
    by_cases hq : q = p
    · subst hq
      exact setFile_hasFileB_self fs q c
    · rw [setFile_hasFileB_ne fs c hq]
      exact h

/-- Adding directories extends the filesystem. -/
theorem dirs_append_Ext (fs : FS) (xs : List Path) :
    fs.Ext { fs with dirs := xs ++ fs.dirs } := by
  constructor
  · intro q h
    rw [isDirB_iff] at h ⊢
    exact List.mem_append.mpr (Or.inr h)
  · intro q h
    exact h

/-- One write step extends the filesystem. -/
theorem writeOne_Ext (a : ZipArchive) (fs : FS) (ef : ExtractedFile) :
    fs.Ext (writeOne a fs ef).fs := by
  rcases writeOne_fs_cases a fs ef with h | h | ⟨c, h | h⟩
  · rw [h]
    exact Ext_refl fs
  · rw [h]
    exact dirs_append_Ext fs _
  · rw [h]
    exact setFile_Ext fs ef.path c
  · rw [h]
    exact Ext_trans (setFile_Ext fs ef.path []) (setFile_Ext _ ef.path c)

/-- The whole write pass extends the filesystem. -/
theorem write_Ext (a : ZipArchive) :
    ∀ (l : List ExtractedFile) (fs : FS), fs.Ext (write_extracted_files a fs l).fs
  | [], fs => Ext_refl fs
  | ef :: rest, fs => by
    cases hw : (writeOne a fs ef).err with
    | some e =>
      rw [write_cons_err hw]
      exact writeOne_Ext a fs ef
    | none =>
      rw [write_cons_ok hw]
      exact Ext_trans (writeOne_Ext a fs ef) (write_Ext a rest (writeOne a fs ef).fs)

/-- In a well-formed filesystem, directories hold no file. -/
theorem wfB_mem {fs : FS} (hwf : fs.wfB = true) {q : Path} (hq : q ∈ fs.dirs) :
    fs.hasFileB q = false := by
  have := List.all_eq_true.mp hwf q hq
  rwa [Bool.not_eq_true'] at this

/-- In a well-formed filesystem, a path holding a file is no directory. -/
theorem hasFileB_not_isDirB {fs : FS} (hwf : fs.wfB = true) {p : Path}
    (h : fs.hasFileB p = true) : fs.isDirB p = false := by
  cases hd : fs.isDirB p with
  | false => rfl
  | true =>
    exfalso
    rw [wfB_mem hwf (isDirB_iff.mp hd)] at h
    cases h

/-- Writing a file where no directory sits preserves well-formedness. -/
theorem setFile_wf {fs : FS} {p : Path} (c : List Nat)
    (hwf : fs.wfB = true) (hnd : fs.isDirB p = false) :
    (fs.setFile p c).wfB = true := by
  unfold FS.wfB
  rw [List.all_eq_true]
  intro q hq
  have hq' : q ∈ fs.dirs := hq
  by_cases hqp : q = p
  · exfalso
    rw [← isDirB_iff, hqp, hnd] at hq'
    cases hq'
  · rw [Bool.not_eq_true', setFile_hasFileB_ne fs c hqp]
    exact wfB_mem hwf hq'

/-- A successful `create_dir_all` preserves well-formedness. -/
theorem createDirAll_wf {fs fs' : FS} {p : Path} (hwf : fs.wfB = true)
    (h : createDirAll fs p = Except.ok fs') : fs'.wfB = true := by
  obtain ⟨rfl, hguard⟩ := createDirAll_ok h
  unfold FS.wfB
  rw [List.all_eq_true]
  intro q hq
  rw [Bool.not_eq_true']
  have hq' : q ∈ p.inits ++ fs.dirs := hq
  rcases List.mem_append.mp hq' with h1 | h2
  · have hno := List.any_eq_false.mp hguard q h1
    cases hb : fs.hasFileB q with
    | false => exact hb
    | true => exact absurd hb hno
  · exact wfB_mem hwf h2

/-- One write step preserves well-formedness. -/
theorem writeOne_wf (a : ZipArchive) (fs : FS) (ef : ExtractedFile)
    (hwf : fs.wfB = true) : ((writeOne a fs ef).fs).wfB = true := by
  unfold writeOne
  split
  · split
    · exact hwf
    · split
      · next fs' heq => exact createDirAll_wf hwf heq
      · exact hwf
  · split
    · exact hwf
    · next fs1 heq =>
      obtain ⟨rfl, hnd, -⟩ := fileCreate_ok heq
      split
      · split
        · exact setFile_wf _ (setFile_wf [] hwf hnd) hnd
        · exact setFile_wf _ (setFile_wf [] hwf hnd) hnd
      · exact setFile_wf [] hwf hnd
      · exact setFile_wf [] hwf hnd

/-- The whole write pass preserves well-formedness. -/
theorem write_wf (a : ZipArchive) :
    ∀ (l : List ExtractedFile) (fs : FS), fs.wfB = true →
      ((write_extracted_files a fs l).fs).wfB = true
  | [], _, h => h
  | ef :: rest, fs, h => by
    cases hw : (writeOne a fs ef).err with
    | some e =>
      rw [write_cons_err hw]
      exact writeOne_wf a fs ef h
    | none =>
      rw [write_cons_ok hw]
      exact write_wf a rest (writeOne a fs ef).fs (writeOne_wf a fs ef h)

/-- Inversion of a successful write step on a directory entry. -/
theorem writeOne_dir_inv {a : ZipArchive} {fs : FS} {ef : ExtractedFile}
    (hk : ef.kind = FileKind.Directory)
    (herr : (writeOne a fs ef).err = none) :
    (fs.existsB ef.path = true ∧ writeOne a fs ef = ⟨fs, [], none⟩) ∨
    (fs.existsB ef.path = false ∧ ∃ fs', createDirAll fs ef.path = Except.ok fs' ∧
      writeOne a fs ef = ⟨fs', [FsEvent.mkdirAll ef.path], none⟩) := by
  by_cases he : fs.existsB ef.path = true
  · exact Or.inl ⟨he, writeOne_dir_exists hk he⟩
  · have hee : fs.existsB ef.path = false := by
      cases h : fs.existsB ef.path with
      | false => rfl
      | true => exact absurd h he
    cases hca : createDirAll fs ef.path with
    | error k =>
      exfalso
      have : (writeOne a fs ef).err = some (ExtractError.ioError k) := by
        unfold writeOne
        simp [hk, hee, hca]
      rw [this] at herr
      cases herr
    | ok fs' =>
      refine Or.inr ⟨hee, fs', rfl, ?_⟩
      unfold writeOne
      simp [hk, hee, hca]

/-- After a successful write step of a directory entry, the directory
path exists. -/
theorem writeOne_dir_after {a : ZipArchive} {fs : FS} {ef : ExtractedFile}
    (hk : ef.kind = FileKind.Directory)
    (herr : (writeOne a fs ef).err = none) :
    ((writeOne a fs ef).fs).existsB ef.path = true := by
  rcases writeOne_dir_inv hk herr with ⟨hex, heq⟩ | ⟨-, fs', hca, heq⟩
  · rw [heq]
    exact hex
  · rw [heq]
    obtain ⟨rfl, -⟩ := createDirAll_ok hca
    rw [FS.existsB, Bool.or_eq_true]
    left
    rw [isDirB_iff]
    exact List.mem_append.mpr (Or.inl (self_mem_inits ef.path))

/-- Re-running a successfully executed plan from any well-formed
extension of its final filesystem succeeds again. -/
theorem write_rerun (a : ZipArchive) :
    ∀ (l : List ExtractedFile) (fs g : FS),
      (write_extracted_files a fs l).err = none →
      FS.Ext (write_extracted_files a fs l).fs g →
      g.wfB = true →
      (write_extracted_files a g l).err = none ∧
      FS.Ext (write_extracted_files a fs l).fs (write_extracted_files a g l).fs ∧
      ((write_extracted_files a g l).fs).wfB = true
  | [], fs, g, _, hext, hwf => ⟨rfl, hext, hwf⟩
  | ef :: rest, fs, g, herr, hext, hwf => by
    cases hw : (writeOne a fs ef).err with
    | some e =>
      rw [write_cons_err hw] at herr
      simp at herr
    | none =>
      rw [write_cons_ok hw] at herr hext ⊢
      simp only at herr hext
      cases hk : ef.kind with
      | Directory =>
        have hafter : ((writeOne a fs ef).fs).existsB ef.path = true :=
          writeOne_dir_after hk hw
        have hgex : g.existsB ef.path = true :=
          Ext_existsB hext (Ext_existsB (write_Ext a rest (writeOne a fs ef).fs) hafter)
        have hgone : writeOne a g ef = ⟨g, [], none⟩ := writeOne_dir_exists hk hgex
        obtain ⟨e2, x2, w2⟩ :=
          write_rerun a rest (writeOne a fs ef).fs g herr hext hwf
        rw [write_cons_ok (show (writeOne a g ef).err = none by rw [hgone]), hgone]
        exact ⟨e2, x2, w2⟩
      | File s =>
        obtain ⟨e, bytes, hg0, hs0, hnd, hpd, hone⟩ := writeOne_file_inv hk hw
        have hfile_after : ((writeOne a fs ef).fs).hasFileB ef.path = true := by
          rw [hone]
          exact setFile_hasFileB_self _ ef.path bytes
        have hfile_g : g.hasFileB ef.path = true :=
          (Ext_trans (write_Ext a rest (writeOne a fs ef).fs) hext).2 ef.path hfile_after
        have hgnd : g.isDirB ef.path = false := hasFileB_not_isDirB hwf hfile_g
        have hpd_after : ((writeOne a fs ef).fs).isDirB ef.path.dropLast = true := by
          rw [hone]
          exact hpd
        have hgpd : g.isDirB ef.path.dropLast = true :=
          (Ext_trans (write_Ext a rest (writeOne a fs ef).fs) hext).1 _ hpd_after
        have hgfc : fileCreate g ef.path = Except.ok (g.setFile ef.path []) := by
          unfold fileCreate
          rw [hgnd, hgpd]
          simp
        have hgone : writeOne a g ef =
            ⟨(g.setFile ef.path []).setFile ef.path bytes,
             [FsEvent.createFile ef.path], none⟩ := writeOne_file_eq hk hgfc hg0 hs0
        obtain ⟨e2, x2, w2⟩ :=
          write_rerun a rest (writeOne a fs ef).fs
            ((g.setFile ef.path []).setFile ef.path bytes) herr
            (Ext_trans hext (Ext_trans (setFile_Ext g ef.path [])
              (setFile_Ext _ ef.path bytes)))
            (setFile_wf _ (setFile_wf [] hwf hgnd) hgnd)
        rw [write_cons_ok (show (writeOne a g ef).err = none by rw [hgone]), hgone]
        exact ⟨e2, x2, w2⟩

/-! ## Claim C8 — idempotent directory creation -/

/-- C8: a planned directory entry whose target already exists is a
successful no-op, and running `extract` a second time, starting from the
filesystem a successful run produced, succeeds as a whole — in
particular no directory-creation step errors on the second run. -/
theorem c8_idempotent_directory_creation :
    (∀ (a : ZipArchive) (fs : FS) (ef : ExtractedFile),
        ef.kind = FileKind.Directory → fs.existsB ef.path = true →
        writeOne a fs ef = ⟨fs, [], none⟩) ∧
    (∀ (x : ZipExtractor) (fs : FS), fs.wfB = true →
        (x.extract fs).err = none →
        (x.extract (x.extract fs).fs).err = none) := by
  constructor
  · intro a fs ef hk he
    exact writeOne_dir_exists hk he
  · intro x fs hwf herr
    exact (write_rerun x.archive (get_extracted_files x.archive x.output_dir) fs
      (write_extracted_files x.archive fs
        (get_extracted_files x.archive x.output_dir)).fs
      herr (Ext_refl _)
      (write_wf x.archive (get_extracted_files x.archive x.output_dir) fs hwf)).1

/-- C8 (witness): extracting the sample archive into the pre-existing
destination succeeds, and re-running from the produced filesystem also
succeeds. -/
theorem c8_idempotent_directory_creation_witness :
    demoFS.wfB = true ∧
    ((ZipExtractor.new demoArchive ["out"] false).extract demoFS).err = none ∧
    ((ZipExtractor.new demoArchive ["out"] false).extract
      ((ZipExtractor.new demoArchive ["out"] false).extract demoFS).fs).err = none :=
  ⟨by decide, by decide,
   c8_idempotent_directory_creation.2 (ZipExtractor.new demoArchive ["out"] false)
     demoFS (by decide) (by decide)⟩

end RustDecompress
